import Mathlib

/-!
Shallow embedding of the `merkle-tree` Rust crate (`src/merkle_tree.rs`).

A `Hash` (`[u8; 32]` in the source) is modelled as a list of naturals
(`Bytes`); hashes are compared by byte equality and ordered by the
byte-wise lexicographic order that Rust's `Ord` on byte arrays gives.

The SHA-256 digest (`MerkleTree::hash`, delegated to the external
`hmac_sha256` crate) is the spec's external "Digest Oracle": every
definition below is parameterised by an arbitrary digest function
`hash : Bytes → Bytes`, so each theorem holds in particular for the
SHA-256 instance.

The two source loops are modelled with explicit fuel:
`construct_levels` runs its `while let` with fuel `leaves.length`
(the level length strictly decreases from any length ≥ 2, and a level
of length 1 stops the loop, so this fuel is never exhausted for the
non-empty inputs `build` and `insert` supply); the
`proof_of_inclusion` walk runs with fuel `levels.length` (the level
index increases every iteration and the walk stops at the top level).

`tree_height` in the source is only used to pre-allocate a vector
capacity and has no observable effect, so it is not modelled.

Rust panics on indexing (`self.levels[0]`, the `unwrap`s in `root`)
are modelled by the `getD`/`headD` defaults; the theorems about those
operations carry the non-emptiness hypotheses under which the source
never panics.
-/

namespace MerkleSpec

/-- A byte string; `Hash = [u8; 32]` in the source is the special case
of a 32-byte value. -/
abbrev Bytes := List Nat

/-- Byte-wise lexicographic comparison, `a ≤ b`; this is the order
Rust's derived `Ord` on byte arrays uses (on equal-length arrays the
length tie-break never fires). -/
def bytesLe : Bytes → Bytes → Bool
  | [], _ => true
  | _ :: _, [] => false
  | a :: as, b :: bs => if a < b then true else if b < a then false else bytesLe as bs

/-- Insert one hash into an already sorted list of hashes (helper for
`sortHashes`). -/
def insertSorted (h : Bytes) : List Bytes → List Bytes
  | [] => [h]
  | x :: xs => if bytesLe h x then h :: x :: xs else x :: insertSorted h xs

/-- Sorting a list of hashes into ascending byte order; models
`children_vector.sort()` in `merkle_parent`. -/
def sortHashes : List Bytes → List Bytes
  | [] => []
  | x :: xs => insertSorted x (sortHashes xs)

/-- The `TreePosition` struct of the source: a level index, an index
within that level, and the hash stored there. -/
structure TreePosition where
  level : Nat
  index : Nat
  hash : Bytes
deriving DecidableEq, Repr

/-- The `MerkleTree` struct of the source: `levels: Vec<Vec<Hash>>`,
level 0 the leaves, the last level the root. -/
structure MerkleTree where
  levels : List (List Bytes)
deriving DecidableEq, Repr

section Model

variable (hash : Bytes → Bytes)

/-- `MerkleTree::merkle_parent`: sort the children ascending,
concatenate their bytes (`as_flattened`) and digest the result. -/
def merkle_parent (children : List Bytes) : Bytes :=
  hash (sortHashes children).flatten

/-- `parent_level.chunks_exact(2).map(Self::merkle_parent).collect()`:
combine consecutive pairs, dropping a length-1 remainder as
`chunks_exact` does. -/
def pairwiseParents : List Bytes → List Bytes
  | a :: b :: rest => merkle_parent hash [a, b] :: pairwiseParents rest
  | _ => []

/-- `MerkleTree::merkle_parent_level`: `None` for a one-element level
(the root); otherwise duplicate the last hash when the length is odd,
then combine consecutive pairs. -/
def merkle_parent_level (level : List Bytes) : Option (List Bytes) :=
  if level.length = 1 then none
  else some (pairwiseParents hash
    (if level.length % 2 = 1 then level ++ [level.getLastD []] else level))

/-- The `while let Some(level) = merkle_parent_level(...)` loop of
`construct_levels`, returning the levels built above `level`; the fuel
bounds the iteration count (see the file comment). -/
def levelsAbove : Nat → List Bytes → List (List Bytes)
  | 0, _ => []
  | fuel + 1, level =>
    match merkle_parent_level hash level with
    | none => []
    | some parent => parent :: levelsAbove fuel parent

/-- `MerkleTree::construct_levels`: the leaves followed by every level
the `while let` loop pushes. -/
def construct_levels (leaves : List Bytes) : List (List Bytes) :=
  leaves :: levelsAbove hash leaves.length leaves

/-- `MerkleTree::build`: `None` on an empty item list, otherwise hash
every item in order and assemble the level stack. -/
def build (items : List Bytes) : Option MerkleTree :=
  if items.isEmpty then none
  else some ⟨construct_levels hash (items.map hash)⟩

/-- `MerkleTree::insert`: append the new item's hash to level 0 and
rebuild the whole level stack. -/
def insert (t : MerkleTree) (item : Bytes) : MerkleTree :=
  ⟨construct_levels hash (t.levels.getD 0 [] ++ [hash item])⟩

end Model

/-- `MerkleTree::root`: the single hash of the last level. -/
def root (t : MerkleTree) : Bytes :=
  (t.levels.getLastD []).headD []

/-- `MerkleTree::get_parent`: the hash at `(level + 1, index / 2)`
when both indices exist. -/
def get_parent (t : MerkleTree) (level index : Nat) : Option TreePosition :=
  match (t.levels.get? (level + 1)).bind (fun l => l.get? (index / 2)) with
  | none => none
  | some h => some ⟨level + 1, index / 2, h⟩

/-- `MerkleTree::get_sibling`: the hash at the partner index
(`index - 1` if `index` is odd, else `index + 1`) when it exists. -/
def get_sibling (t : MerkleTree) (level index : Nat) : Option TreePosition :=
  match (t.levels.get? level).bind
      (fun l => l.get? (if index % 2 = 1 then index - 1 else index + 1)) with
  | none => none
  | some h => some ⟨level, (if index % 2 = 1 then index - 1 else index + 1), h⟩

/-- `Iterator::position`: the first index at which the predicate
holds; models `.iter().position(|&h| h == *hash)`. -/
def position (p : Bytes → Bool) : List Bytes → Option Nat
  | [] => none
  | x :: xs => if p x then some 0 else (position p xs).map (· + 1)

/-- The `while let Some(parent) = get_parent(...)` loop of
`proof_of_inclusion`: push the sibling's hash (or the current hash
when no sibling position exists) and move to the parent; fuel bounds
the iteration count by the number of levels. -/
def proofLoop (t : MerkleTree) : Nat → TreePosition → List Bytes
  | 0, _ => []
  | fuel + 1, current =>
    match get_parent t current.level current.index with
    | none => []
    | some parent =>
      ((get_sibling t current.level current.index).getD current).hash ::
        proofLoop t fuel parent

/-- `MerkleTree::proof_of_inclusion`: scan level 0 for the hash
(`None` when absent — the `NotFound` signal), then walk to the root
collecting sibling hashes. -/
def proof_of_inclusion (t : MerkleTree) (h : Bytes) : Option (List Bytes) :=
  (t.levels.get? 0).bind fun level0 =>
    (position (fun x => x == h) level0).map fun index =>
      proofLoop t t.levels.length ⟨0, index, h⟩

/-- `MerkleTree::validate_proof`: fold the candidate hash with each
proof entry through `merkle_parent` and compare with the root. -/
def validate_proof (hash : Bytes → Bytes) (t : MerkleTree) (h : Bytes)
    (proof : List Bytes) : Bool :=
  proof.foldl (fun acc sibling => merkle_parent hash [acc, sibling]) h == root t

/-- `MerkleTree::contains_hash`: linear scan of level 0. -/
def contains_hash (t : MerkleTree) (h : Bytes) : Bool :=
  (t.levels.getD 0 []).any (fun x => x == h)

/-- A tree built from `items` and then extended by `insert` with each
element of `extra` in order; `none` exactly when `build` fails. -/
def buildThenInserts (hash : Bytes → Bytes) (items extra : List Bytes) :
    Option MerkleTree :=
  (build hash items).map (fun t => extra.foldl (insert hash) t)

/-- A concrete digest used to instantiate the witness theorems. -/
def demoDigest (bs : Bytes) : Bytes := 0 :: bs

/-! ### List index helpers -/

theorem lt_length_of_get?_some {α : Type} {l : List α} {n : Nat} {x : α}
    (h : l.get? n = some x) : n < l.length := by
  by_contra hn
  rw [List.get?_eq_none.mpr (by omega)] at h
  cases h

theorem get?_some_of_lt {α : Type} {l : List α} {n : Nat}
    (h : n < l.length) : ∃ x, l.get? n = some x := by
  cases hg : l.get? n with
  | none => rw [List.get?_eq_none] at hg; omega
  | some x => exact ⟨x, rfl⟩

theorem getD_of_get?_some {α : Type} {l : List α} {n : Nat} {x : α} (d : α)
    (h : l.get? n = some x) : l.getD n d = x := by
  rw [List.getD_eq_get?, h]
  rfl

theorem cons_get?_length_eq_getLastD {α : Type} :
    ∀ (l : List α) (x d : α), (x :: l).get? l.length = some ((x :: l).getLastD d)
  | [], _, _ => rfl
  | y :: rest, x, d => by
    rw [List.getLastD_cons, List.length_cons, List.get?_cons_succ]
    exact cons_get?_length_eq_getLastD rest y x

theorem get?_pred_length_eq_getLastD {α : Type} {l : List α} (d : α)
    (h : l ≠ []) : l.get? (l.length - 1) = some (l.getLastD d) := by
  cases l with
  | nil => exact absurd rfl h
  | cons x rest =>
    simpa using cons_get?_length_eq_getLastD rest x d

/-! ### The byte order and the pair combiner -/

theorem bytesLe_total : ∀ a b : Bytes, bytesLe a b = true ∨ bytesLe b a = true := by
  intro a
  induction a with
  | nil => intro b; left; rfl
  | cons x xs ih =>
    intro b
    cases b with
    | nil => right; rfl
    | cons y ys =>
      simp only [bytesLe]
      rcases Nat.lt_trichotomy x y with h | h | h
      · left
        simp [h]
      · subst h
        have hx : ¬ x < x := lt_irrefl x
        simpa [hx] using ih ys
      · right
        simp [h]

theorem bytesLe_antisymm : ∀ a b : Bytes,
    bytesLe a b = true → bytesLe b a = true → a = b := by
  intro a
  induction a with
  | nil =>
    intro b hab hba
    cases b with
    | nil => rfl
    | cons y ys => simp [bytesLe] at hba
  | cons x xs ih =>
    intro b hab hba
    cases b with
    | nil => simp [bytesLe] at hab
    | cons y ys =>
      simp only [bytesLe] at hab hba
      rcases Nat.lt_trichotomy x y with h | h | h
      · rw [if_neg (Nat.lt_asymm h), if_pos h] at hba
        exact absurd hba (by simp)
      · subst h
        have hx : ¬ x < x := lt_irrefl x
        rw [if_neg hx, if_neg hx] at hab hba
        rw [ih ys hab hba]
      · rw [if_neg (Nat.lt_asymm h), if_pos h] at hab
        exact absurd hab (by simp)

theorem sortHashes_pair (a b : Bytes) :
    sortHashes [a, b] = if bytesLe a b then [a, b] else [b, a] := by
  simp [sortHashes, insertSorted]

theorem merkle_parent_comm (hash : Bytes → Bytes) (a b : Bytes) :
    merkle_parent hash [a, b] = merkle_parent hash [b, a] := by
  unfold merkle_parent
  rcases bytesLe_total a b with h | h
  · by_cases h2 : bytesLe b a = true
    · rw [bytesLe_antisymm a b h h2]
    · rw [sortHashes_pair, sortHashes_pair, if_pos h, if_neg h2]
  · by_cases h2 : bytesLe a b = true
    · rw [bytesLe_antisymm a b h2 h]
    · rw [sortHashes_pair, sortHashes_pair, if_neg h2, if_pos h]

/-! ### The level builder -/

theorem pairwiseParents_length (hash : Bytes → Bytes) :
    ∀ l : List Bytes, (pairwiseParents hash l).length = l.length / 2
  | [] => by simp [pairwiseParents]
  | [a] => by simp [pairwiseParents]
  | a :: b :: rest => by
    simp only [pairwiseParents, List.length_cons]
    rw [pairwiseParents_length hash rest]
    omega

theorem pairwiseParents_get? (hash : Bytes → Bytes) :
    ∀ (l : List Bytes) (k : Nat) (a b : Bytes),
      l.get? (2 * k) = some a → l.get? (2 * k + 1) = some b →
      (pairwiseParents hash l).get? k = some (merkle_parent hash [a, b])
  | [], _, _, _ => by
    intro ha _
    simp at ha
  | [x], k, _, b => by
    intro _ hb
    have := lt_length_of_get?_some hb
    simp at this
  | x :: y :: rest, 0, a, b => by
    intro ha hb
    have ha' : x = a := by simpa using ha
    have hb' : y = b := by simpa using hb
    subst ha'
    subst hb'
    simp [pairwiseParents]
  | x :: y :: rest, k + 1, a, b => by
    intro ha hb
    have e1 : 2 * (k + 1) = 2 * k + 1 + 1 := by ring
    have e2 : 2 * (k + 1) + 1 = 2 * k + 1 + 1 + 1 := by ring
    rw [e1, List.get?_cons_succ, List.get?_cons_succ] at ha
    rw [e2, List.get?_cons_succ, List.get?_cons_succ] at hb
    simp only [pairwiseParents, List.get?_cons_succ]
    exact pairwiseParents_get? hash rest k a b ha hb

theorem merkle_parent_level_eq_none (hash : Bytes → Bytes) (lvl : List Bytes) :
    merkle_parent_level hash lvl = none ↔ lvl.length = 1 := by
  by_cases h : lvl.length = 1 <;> simp [merkle_parent_level, h]

theorem merkle_parent_level_some_ne_one (hash : Bytes → Bytes)
    {lvl parent : List Bytes} (hp : merkle_parent_level hash lvl = some parent) :
    lvl.length ≠ 1 := by
  intro h
  simp [merkle_parent_level, h] at hp

theorem merkle_parent_level_some_length (hash : Bytes → Bytes)
    {lvl parent : List Bytes} (hp : merkle_parent_level hash lvl = some parent) :
    parent.length = (lvl.length + 1) / 2 := by
  have h1 := merkle_parent_level_some_ne_one hash hp
  by_cases h2 : lvl.length % 2 = 1
  · simp only [merkle_parent_level, if_neg h1, if_pos h2, Option.some.injEq] at hp
    rw [← hp, pairwiseParents_length]
    simp only [List.length_append, List.length_singleton]
  · simp only [merkle_parent_level, if_neg h1, if_neg h2, Option.some.injEq] at hp
    rw [← hp, pairwiseParents_length]
    omega

/-- The level actually paired by `merkle_parent_level`: the input
level, extended by its own last hash when the length was odd. -/
theorem merkle_parent_level_padded (hash : Bytes → Bytes)
    {lvl parent : List Bytes} (hp : merkle_parent_level hash lvl = some parent) :
    ∃ pl : List Bytes, parent = pairwiseParents hash pl ∧
      lvl.length ≤ pl.length ∧ pl.length % 2 = 0 ∧
      (∀ j, j < lvl.length → pl.get? j = lvl.get? j) ∧
      (lvl.length % 2 = 1 → pl.get? lvl.length = lvl.get? (lvl.length - 1)) := by
  have h1 := merkle_parent_level_some_ne_one hash hp
  by_cases h2 : lvl.length % 2 = 1
  · simp only [merkle_parent_level, if_neg h1, if_pos h2, Option.some.injEq] at hp
    refine ⟨lvl ++ [lvl.getLastD []], hp.symm, by simp, by simp; omega, ?_, ?_⟩
    · intro j hj
      exact List.get?_append hj
    · intro _
      have hne : lvl ≠ [] := by
        intro he
        rw [he] at h2
        simp at h2
      rw [List.get?_concat_length, get?_pred_length_eq_getLastD [] hne]
  · simp only [merkle_parent_level, if_neg h1, if_neg h2, Option.some.injEq] at hp
    refine ⟨lvl, hp.symm, le_refl _, by omega, fun j _ => rfl, fun hodd => absurd hodd h2⟩

/-- Combining a hash of a level with its sibling (itself when the
sibling index is out of range) gives the parent entry at half the
index. -/
theorem parent_entry (hash : Bytes → Bytes) {lvl parent : List Bytes}
    (hp : merkle_parent_level hash lvl = some parent)
    {i : Nat} {x : Bytes} (hx : lvl.get? i = some x) :
    parent.get? (i / 2) =
      some (merkle_parent hash
        [x, (lvl.get? (if i % 2 = 1 then i - 1 else i + 1)).getD x]) := by
  obtain ⟨pl, hpl, hlen, heven, hsame, hlast⟩ := merkle_parent_level_padded hash hp
  have hi : i < lvl.length := lt_length_of_get?_some hx
  have hne1 : lvl.length ≠ 1 := merkle_parent_level_some_ne_one hash hp
  have hL : 2 ≤ lvl.length := by omega
  subst hpl
  by_cases hodd : i % 2 = 1
  · -- odd index: the sibling is at i - 1, pairing order (i-1, i)
    obtain ⟨y, hy⟩ := get?_some_of_lt (show i - 1 < lvl.length by omega)
    have h2k : pl.get? (2 * (i / 2)) = some y := by
      rw [show 2 * (i / 2) = i - 1 by omega, hsame (i - 1) (by omega), hy]
    have h2k1 : pl.get? (2 * (i / 2) + 1) = some x := by
      rw [show 2 * (i / 2) + 1 = i by omega, hsame i hi, hx]
    rw [pairwiseParents_get? hash pl (i / 2) y x h2k h2k1]
    rw [if_pos hodd, hy, merkle_parent_comm]
    rfl
  · by_cases hnext : i + 1 < lvl.length
    · -- even index with a sibling at i + 1
      obtain ⟨y, hy⟩ := get?_some_of_lt hnext
      have h2k : pl.get? (2 * (i / 2)) = some x := by
        rw [show 2 * (i / 2) = i by omega, hsame i hi, hx]
      have h2k1 : pl.get? (2 * (i / 2) + 1) = some y := by
        rw [show 2 * (i / 2) + 1 = i + 1 by omega, hsame (i + 1) hnext, hy]
      rw [pairwiseParents_get? hash pl (i / 2) x y h2k h2k1]
      rw [if_neg hodd, hy]
      rfl
    · -- even last index of an odd-length level: paired with itself
      have hiL : i + 1 = lvl.length := by omega
      have hLodd : lvl.length % 2 = 1 := by omega
      have h2k : pl.get? (2 * (i / 2)) = some x := by
        rw [show 2 * (i / 2) = i by omega, hsame i hi, hx]
      have h2k1 : pl.get? (2 * (i / 2) + 1) = some x := by
        rw [show 2 * (i / 2) + 1 = lvl.length by omega, hlast hLodd,
          show lvl.length - 1 = i by omega, hx]
      rw [pairwiseParents_get? hash pl (i / 2) x x h2k h2k1]
      rw [if_neg hodd, List.get?_eq_none.mpr (by omega)]
      rfl

/-! ### The level-stack invariant -/

theorem getLastD_default_irrel {α : Type} :
    ∀ (l : List α) (d d' : α), l ≠ [] → l.getLastD d = l.getLastD d'
  | [], _, _ => fun h => absurd rfl h
  | x :: rest, d, d' => fun _ => by rw [List.getLastD_cons, List.getLastD_cons]

/-- The invariant every level stack produced by `construct_levels` on
a non-empty leaf list satisfies: each level is the
`merkle_parent_level` of the one below, all levels are non-empty, and
the last level is a single hash. -/
structure WellFormed (hash : Bytes → Bytes) (t : MerkleTree) : Prop where
  ne : t.levels ≠ []
  link : ∀ i, i + 1 < t.levels.length →
    merkle_parent_level hash (t.levels.getD i []) = some (t.levels.getD (i + 1) [])
  lastOne : (t.levels.getLastD []).length = 1
  levelNe : ∀ i, i < t.levels.length → t.levels.getD i [] ≠ []

theorem levelsAbove_chain (hash : Bytes → Bytes) :
    ∀ (fuel : Nat), ∀ (level : List Bytes), level ≠ [] → level.length ≤ fuel →
      (∀ i, i + 1 < (level :: levelsAbove hash fuel level).length →
        merkle_parent_level hash ((level :: levelsAbove hash fuel level).getD i []) =
          some ((level :: levelsAbove hash fuel level).getD (i + 1) [])) ∧
      ((level :: levelsAbove hash fuel level).getLastD []).length = 1 ∧
      (∀ i, i < (level :: levelsAbove hash fuel level).length →
        (level :: levelsAbove hash fuel level).getD i [] ≠ []) := by
  intro fuel
  induction fuel with
  | zero =>
    intro level hne hlen
    exfalso
    have : 0 < level.length := List.length_pos.mpr hne
    omega
  | succ fuel ih =>
    intro level hne hlen
    cases hml : merkle_parent_level hash level with
    | none =>
      have h1 : level.length = 1 := (merkle_parent_level_eq_none hash level).mp hml
      refine ⟨?_, ?_, ?_⟩
      · intro i hi
        simp only [levelsAbove, hml, List.length_cons, List.length_nil] at hi
        omega
      · simp only [levelsAbove, hml]
        exact h1
      · intro i hi
        simp only [levelsAbove, hml, List.length_cons, List.length_nil] at hi
        have hi0 : i = 0 := by omega
        subst hi0
        simpa using hne
    | some parent =>
      have hne1 : level.length ≠ 1 := merkle_parent_level_some_ne_one hash hml
      have h0 : 0 < level.length := List.length_pos.mpr hne
      have hL2 : 2 ≤ level.length := by omega
      have hplen : parent.length = (level.length + 1) / 2 :=
        merkle_parent_level_some_length hash hml
      have hpne : parent ≠ [] := List.length_pos.mp (by omega)
      have hpfuel : parent.length ≤ fuel := by omega
      obtain ⟨ihl, ihlast, ihne⟩ := ih parent hpne hpfuel
      refine ⟨?_, ?_, ?_⟩
      · intro i hi
        simp only [levelsAbove, hml] at hi ⊢
        cases i with
        | zero =>
          simpa using hml
        | succ i =>
          simp only [List.getD_cons_succ]
          exact ihl i (by simpa using hi)
      · simp only [levelsAbove, hml, List.getLastD_cons]
        simpa only [List.getLastD_cons] using ihlast
      · intro i hi
        simp only [levelsAbove, hml] at hi ⊢
        cases i with
        | zero => simpa using hne
        | succ i =>
          simp only [List.getD_cons_succ]
          exact ihne i (by simpa using hi)

theorem construct_levels_wf (hash : Bytes → Bytes) (leaves : List Bytes)
    (hne : leaves ≠ []) : WellFormed hash ⟨construct_levels hash leaves⟩ := by
  obtain ⟨hl, hlast, hne2⟩ :=
    levelsAbove_chain hash leaves.length leaves hne (le_refl _)
  exact ⟨List.cons_ne_nil _ _, hl, hlast, hne2⟩

theorem construct_levels_level0 (hash : Bytes → Bytes) (leaves : List Bytes) :
    (construct_levels hash leaves).getD 0 [] = leaves := rfl

/-- Every tree reachable by `build` and a sequence of `insert`s is a
`construct_levels` stack over some non-empty leaf list. -/
theorem foldl_insert_levels (hash : Bytes → Bytes) :
    ∀ (extra : List Bytes) (leaves : List Bytes), leaves ≠ [] →
      ∃ leaves2, leaves2 ≠ [] ∧
        extra.foldl (insert hash) ⟨construct_levels hash leaves⟩ =
          ⟨construct_levels hash leaves2⟩
  | [], leaves => fun h => ⟨leaves, h, rfl⟩
  | x :: rest, leaves => fun h => by
    simp only [List.foldl_cons]
    have hstep : insert hash ⟨construct_levels hash leaves⟩ x =
        ⟨construct_levels hash (leaves ++ [hash x])⟩ := rfl
    rw [hstep]
    exact foldl_insert_levels hash rest (leaves ++ [hash x]) (by simp)

theorem buildThenInserts_reachable (hash : Bytes → Bytes)
    (items extra : List Bytes) (t : MerkleTree)
    (ht : buildThenInserts hash items extra = some t) :
    ∃ leaves, leaves ≠ [] ∧ t = ⟨construct_levels hash leaves⟩ := by
  unfold buildThenInserts build at ht
  cases hit : items.isEmpty with
  | true => simp [hit] at ht
  | false =>
    simp only [hit, Bool.false_eq_true, if_false, Option.map_some'] at ht
    have hne : items.map hash ≠ [] := by
      intro hmap
      rw [List.map_eq_nil] at hmap
      subst hmap
      simp at hit
    obtain ⟨l2, hl2, heq⟩ := foldl_insert_levels hash extra (items.map hash) hne
    have ht2 : List.foldl (insert hash) ⟨construct_levels hash (items.map hash)⟩ extra = t := by
      injection ht
    exact ⟨l2, hl2, by rw [← ht2, heq]⟩

/-! ### The proof walk -/

/-- At the top level (no parent exists) the held hash is the root. -/
theorem top_hash_eq_root (hash : Bytes → Bytes) {t : MerkleTree}
    (wf : WellFormed hash t) {level index : Nat} {h : Bytes} {lvl : List Bytes}
    (hlvl : t.levels.get? level = some lvl) (hidx : lvl.get? index = some h)
    (htop : t.levels.length ≤ level + 1) : h = root t := by
  have hlt : level < t.levels.length := lt_length_of_get?_some hlvl
  have hlev : level = t.levels.length - 1 := by omega
  have hlast : t.levels.get? (t.levels.length - 1) = some (t.levels.getLastD []) :=
    get?_pred_length_eq_getLastD [] wf.ne
  rw [hlev, hlast] at hlvl
  have hlvl2 : t.levels.getLastD [] = lvl := by
    injection hlvl
  have hlen1 : lvl.length = 1 := by rw [← hlvl2]; exact wf.lastOne
  have hidx0 : index = 0 := by
    have := lt_length_of_get?_some hidx
    omega
  subst hidx0
  unfold root
  rw [hlvl2]
  cases lvl with
  | nil => simp at hlen1
  | cons a rest =>
    have : a = h := by simpa using hidx
    rw [List.headD_cons, this]

/-- Below the top, the parent position exists and holds the combiner
of the current hash and its sibling (itself when out of range). -/
theorem parent_position (hash : Bytes → Bytes) {t : MerkleTree}
    (wf : WellFormed hash t) {level index : Nat} {h : Bytes} {lvl : List Bytes}
    (hlvl : t.levels.get? level = some lvl) (hidx : lvl.get? index = some h)
    (hnext : level + 1 < t.levels.length) :
    ∃ lvl', t.levels.get? (level + 1) = some lvl' ∧
      lvl'.get? (index / 2) =
        some (merkle_parent hash
          [h, (lvl.get? (if index % 2 = 1 then index - 1 else index + 1)).getD h]) := by
  have hl := wf.link level hnext
  have hgl : t.levels.getD level [] = lvl := getD_of_get?_some [] hlvl
  obtain ⟨lvl', hlvl'⟩ := get?_some_of_lt hnext
  have hgl' : t.levels.getD (level + 1) [] = lvl' := getD_of_get?_some [] hlvl'
  rw [hgl, hgl'] at hl
  exact ⟨lvl', hlvl', parent_entry hash hl hidx⟩

/-- Specification of the sibling-collecting walk: it visits every
level above the start, and folding the combiner along the collected
path carries the start hash to the root. -/
theorem proofLoop_spec (hash : Bytes → Bytes) {t : MerkleTree}
    (wf : WellFormed hash t) :
    ∀ (fuel : Nat), ∀ (level index : Nat) (h : Bytes) (lvl : List Bytes),
      t.levels.get? level = some lvl → lvl.get? index = some h →
      t.levels.length ≤ fuel + level + 1 →
      (proofLoop t fuel ⟨level, index, h⟩).length = t.levels.length - 1 - level ∧
      (proofLoop t fuel ⟨level, index, h⟩).foldl
        (fun acc sib => merkle_parent hash [acc, sib]) h = root t := by
  intro fuel
  induction fuel with
  | zero =>
    intro level index h lvl hlvl hidx hfl
    have hlt : level < t.levels.length := lt_length_of_get?_some hlvl
    refine ⟨by simp [proofLoop]; omega, ?_⟩
    simp only [proofLoop, List.foldl_nil]
    exact top_hash_eq_root hash wf hlvl hidx (by omega)
  | succ fuel ih =>
    intro level index h lvl hlvl hidx hfl
    have hlt : level < t.levels.length := lt_length_of_get?_some hlvl
    by_cases hnext : level + 1 < t.levels.length
    · obtain ⟨lvl', hlvl', hph⟩ := parent_position hash wf hlvl hidx hnext
      have hgp : get_parent t level index =
          some ⟨level + 1, index / 2,
            merkle_parent hash
              [h, (lvl.get? (if index % 2 = 1 then index - 1 else index + 1)).getD h]⟩ := by
        unfold get_parent
        rw [hlvl']
        simp only [Option.some_bind, hph]
      have hgs : ((get_sibling t level index).getD ⟨level, index, h⟩).hash =
          (lvl.get? (if index % 2 = 1 then index - 1 else index + 1)).getD h := by
        unfold get_sibling
        rw [hlvl]
        cases hs : lvl.get? (if index % 2 = 1 then index - 1 else index + 1) with
        | none =>
          rw [List.get?_eq_getElem?] at hs
          simp [hs]
        | some s =>
          rw [List.get?_eq_getElem?] at hs
          simp [hs]
      obtain ⟨ihlen, ihfold⟩ := ih (level + 1) (index / 2)
        (merkle_parent hash
          [h, (lvl.get? (if index % 2 = 1 then index - 1 else index + 1)).getD h])
        lvl' hlvl' hph (by omega)
      simp only [proofLoop, hgp, hgs]
      refine ⟨?_, ?_⟩
      · simp only [List.length_cons, ihlen]
        omega
      · rw [List.foldl_cons]
        exact ihfold
    · have hgp : get_parent t level index = none := by
        unfold get_parent
        rw [List.get?_eq_none.mpr (by omega)]
        rfl
      simp only [proofLoop, hgp]
      refine ⟨by simp; omega, ?_⟩
      simp only [List.foldl_nil]
      exact top_hash_eq_root hash wf hlvl hidx (by omega)

/-! ### The level-0 scan -/

theorem getD_pred_length_eq_getLastD {α : Type} {l : List α} (d : α)
    (h : l ≠ []) : l.getD (l.length - 1) d = l.getLastD d :=
  getD_of_get?_some d (get?_pred_length_eq_getLastD d h)

theorem mem_of_get?_some {α : Type} :
    ∀ {l : List α} {n : Nat} {x : α}, l.get? n = some x → x ∈ l := by
  intro l
  induction l with
  | nil => intro n x hx; simp at hx
  | cons a rest ih =>
    intro n x hx
    cases n with
    | zero =>
      have : a = x := by simpa using hx
      subst this
      exact List.mem_cons_self a rest
    | succ n =>
      rw [List.get?_cons_succ] at hx
      exact List.mem_cons_of_mem a (ih hx)

theorem position_some_spec (p : Bytes → Bool) :
    ∀ (l : List Bytes) (i : Nat), position p l = some i →
      ∃ x, l.get? i = some x ∧ p x = true
  | [], i => by simp [position]
  | x :: xs, i => by
    intro hp
    by_cases hpx : p x
    · simp only [position, if_pos hpx, Option.some.injEq] at hp
      subst hp
      exact ⟨x, rfl, hpx⟩
    · simp only [position, if_neg hpx] at hp
      cases hq : position p xs with
      | none => rw [hq] at hp; simp at hp
      | some j =>
        rw [hq, Option.map_some'] at hp
        have hij : j + 1 = i := by simpa using hp
        obtain ⟨y, hy, hpy⟩ := position_some_spec p xs j hq
        refine ⟨y, ?_, hpy⟩
        rw [← hij, List.get?_cons_succ]
        exact hy

theorem position_isSome_of_mem :
    ∀ (l : List Bytes) (h : Bytes), h ∈ l →
      ∃ i, position (fun x => x == h) l = some i
  | [], h => by simp
  | x :: xs, h => by
    intro hm
    by_cases hpx : (x == h) = true
    · exact ⟨0, by simp [position, hpx]⟩
    · have hx : ¬ x = h := by simpa using hpx
      have hm2 : h ∈ xs := by
        rcases List.mem_cons.mp hm with he | hm2
        · exact absurd he.symm hx
        · exact hm2
      obtain ⟨i, hi⟩ := position_isSome_of_mem xs h hm2
      exact ⟨i + 1, by simp [position, hpx, hi]⟩

theorem position_eq_none_iff_not_mem :
    ∀ (l : List Bytes) (h : Bytes),
      position (fun x => x == h) l = none ↔ h ∉ l
  | [], h => by simp [position]
  | x :: xs, h => by
    by_cases hpx : (x == h) = true
    · have hx : x = h := by simpa using hpx
      subst hx
      simp [position, hpx]
    · have hx : ¬ x = h := by simpa using hpx
      simp only [position, if_neg hpx, Option.map_eq_none', List.mem_cons,
        position_eq_none_iff_not_mem xs h]
      constructor
      · intro hnm hor
        rcases hor with he | hmem
        · exact hx he.symm
        · exact hnm hmem
      · intro hall hmem
        exact hall (Or.inr hmem)

/-- Full specification of `proof_of_inclusion` on a well-formed tree
for a hash present in level 0: a path is returned, its length is the
tree height, and the validation fold reaches the root. -/
theorem proof_of_inclusion_spec (hash : Bytes → Bytes) {t : MerkleTree}
    (wf : WellFormed hash t) {h : Bytes}
    (hm : h ∈ t.levels.getD 0 []) :
    ∃ p, proof_of_inclusion t h = some p ∧
      p.length = t.levels.length - 1 ∧
      validate_proof hash t h p = true := by
  have h0 : 0 < t.levels.length := List.length_pos.mpr wf.ne
  obtain ⟨lvl0, hlvl0⟩ := get?_some_of_lt h0
  have hg0 : t.levels.getD 0 [] = lvl0 := getD_of_get?_some [] hlvl0
  rw [hg0] at hm
  obtain ⟨i, hi⟩ := position_isSome_of_mem lvl0 h hm
  obtain ⟨x, hx, hpx⟩ := position_some_spec _ lvl0 i hi
  have hxh : x = h := by simpa using hpx
  subst hxh
  obtain ⟨hlen, hfold⟩ :=
    proofLoop_spec hash wf t.levels.length 0 i x lvl0 hlvl0 hx (by omega)
  refine ⟨proofLoop t t.levels.length ⟨0, i, x⟩, ?_, by simpa using hlen, ?_⟩
  · unfold proof_of_inclusion
    rw [hlvl0, Option.some_bind, hi, Option.map_some']
  · unfold validate_proof
    rw [hfold]
    simp

/-! ### The claims -/

/-- C1: for every tree built from a non-empty item list (possibly
extended by inserts) and every hash `h` present in its level 0,
`proof_of_inclusion h` returns a path `p` and `validate_proof h p` is
`true`. -/
theorem proof_roundtrip (hash : Bytes → Bytes) (items extra : List Bytes)
    (t : MerkleTree) (h : Bytes)
    (ht : buildThenInserts hash items extra = some t)
    (hm : h ∈ t.levels.getD 0 []) :
    ∃ p, proof_of_inclusion t h = some p ∧ validate_proof hash t h p = true := by
  obtain ⟨leaves, hne, rfl⟩ := buildThenInserts_reachable hash items extra t ht
  obtain ⟨p, hp, _, hv⟩ :=
    proof_of_inclusion_spec hash (construct_levels_wf hash leaves hne) hm
  exact ⟨p, hp, hv⟩

theorem proof_roundtrip_witness :
    ∃ p, proof_of_inclusion ⟨[[[0, 1], [0, 2]], [[0, 0, 1, 0, 2]]]⟩ [0, 1] = some p ∧
      validate_proof demoDigest ⟨[[[0, 1], [0, 2]], [[0, 0, 1, 0, 2]]]⟩ [0, 1] p = true :=
  proof_roundtrip demoDigest [[1], [2]] [] ⟨[[[0, 1], [0, 2]], [[0, 0, 1, 0, 2]]]⟩
    [0, 1] (by decide) (by decide)

/-- C2: inserting `x` into the tree built from a non-empty `S` gives a
tree whose root is byte-identical to the root of the tree built from
`S ++ [x]`. -/
theorem insert_build_equiv (hash : Bytes → Bytes) (S : List Bytes) (x : Bytes)
    (t : MerkleTree) (ht : build hash S = some t) :
    ∃ t2, build hash (S ++ [x]) = some t2 ∧ root (insert hash t x) = root t2 := by
  unfold build at ht
  cases hit : S.isEmpty with
  | true => rw [hit] at ht; simp at ht
  | false =>
    rw [hit] at ht
    simp only [Bool.false_eq_true, if_false, Option.some.injEq] at ht
    subst ht
    have hne : (S ++ [x]).isEmpty = false := by
      cases S <;> rfl
    refine ⟨⟨construct_levels hash ((S ++ [x]).map hash)⟩, ?_, ?_⟩
    · unfold build
      rw [hne]
      simp
    · have hmap : (S ++ [x]).map hash = S.map hash ++ [hash x] := by simp
      rw [hmap]
      have hins : insert hash ⟨construct_levels hash (S.map hash)⟩ x =
          ⟨construct_levels hash (S.map hash ++ [hash x])⟩ := rfl
      rw [hins]

theorem insert_build_equiv_witness :
    ∃ t2, build demoDigest ([[1], [2]] ++ [[3]]) = some t2 ∧
      root (insert demoDigest ⟨[[[0, 1], [0, 2]], [[0, 0, 1, 0, 2]]]⟩ [3]) = root t2 :=
  insert_build_equiv demoDigest [[1], [2]] [3]
    ⟨[[[0, 1], [0, 2]], [[0, 0, 1, 0, 2]]]⟩ (by decide)

theorem shape_of_wf (hash : Bytes → Bytes) {t : MerkleTree}
    (wf : WellFormed hash t) :
    t.levels ≠ [] ∧
    (∀ i, i < t.levels.length → 1 < (t.levels.getD i []).length →
      i + 1 < t.levels.length ∧
      (t.levels.getD (i + 1) []).length = ((t.levels.getD i []).length + 1) / 2) ∧
    (∀ i, i < t.levels.length →
      ((t.levels.getD i []).length = 1 ↔ i = t.levels.length - 1)) := by
  have hlast : ∀ i, i < t.levels.length → i = t.levels.length - 1 →
      (t.levels.getD i []).length = 1 := by
    intro i _ hieq
    rw [hieq, getD_pred_length_eq_getLastD [] wf.ne]
    exact wf.lastOne
  refine ⟨wf.ne, ?_, ?_⟩
  · intro i hi hL
    have hnext : i + 1 < t.levels.length := by
      by_contra hc
      have hieq : i = t.levels.length - 1 := by omega
      have := hlast i hi hieq
      omega
    refine ⟨hnext, ?_⟩
    exact merkle_parent_level_some_length hash (wf.link i hnext)
  · intro i hi
    constructor
    · intro h1
      by_contra hc
      have hnext : i + 1 < t.levels.length := by omega
      exact merkle_parent_level_some_ne_one hash (wf.link i hnext) h1
    · exact hlast i hi

/-- C3: every tree produced by `build` on a non-empty input and then
any sequence of `insert`s has at least one level; every level of
length `L > 1` has a next level of length `⌈L/2⌉`; and exactly the
last level has length 1. -/
theorem tree_shape (hash : Bytes → Bytes) (items extra : List Bytes)
    (t : MerkleTree) (ht : buildThenInserts hash items extra = some t) :
    t.levels ≠ [] ∧
    (∀ i, i < t.levels.length → 1 < (t.levels.getD i []).length →
      i + 1 < t.levels.length ∧
      (t.levels.getD (i + 1) []).length = ((t.levels.getD i []).length + 1) / 2) ∧
    (∀ i, i < t.levels.length →
      ((t.levels.getD i []).length = 1 ↔ i = t.levels.length - 1)) := by
  obtain ⟨leaves, hne, rfl⟩ := buildThenInserts_reachable hash items extra t ht
  exact shape_of_wf hash (construct_levels_wf hash leaves hne)

theorem tree_shape_witness :
    (MerkleTree.mk [[[0, 1], [0, 2], [0, 3]], [[0, 0, 1, 0, 2], [0, 0, 3, 0, 3]],
        [[0, 0, 0, 1, 0, 2, 0, 0, 3, 0, 3]]]).levels ≠ [] ∧
    (∀ i, i < (MerkleTree.mk [[[0, 1], [0, 2], [0, 3]], [[0, 0, 1, 0, 2], [0, 0, 3, 0, 3]],
        [[0, 0, 0, 1, 0, 2, 0, 0, 3, 0, 3]]]).levels.length →
      1 < ((MerkleTree.mk [[[0, 1], [0, 2], [0, 3]], [[0, 0, 1, 0, 2], [0, 0, 3, 0, 3]],
        [[0, 0, 0, 1, 0, 2, 0, 0, 3, 0, 3]]]).levels.getD i []).length →
      i + 1 < (MerkleTree.mk [[[0, 1], [0, 2], [0, 3]], [[0, 0, 1, 0, 2], [0, 0, 3, 0, 3]],
        [[0, 0, 0, 1, 0, 2, 0, 0, 3, 0, 3]]]).levels.length ∧
      ((MerkleTree.mk [[[0, 1], [0, 2], [0, 3]], [[0, 0, 1, 0, 2], [0, 0, 3, 0, 3]],
        [[0, 0, 0, 1, 0, 2, 0, 0, 3, 0, 3]]]).levels.getD (i + 1) []).length =
        (((MerkleTree.mk [[[0, 1], [0, 2], [0, 3]], [[0, 0, 1, 0, 2], [0, 0, 3, 0, 3]],
        [[0, 0, 0, 1, 0, 2, 0, 0, 3, 0, 3]]]).levels.getD i []).length + 1) / 2) ∧
    (∀ i, i < (MerkleTree.mk [[[0, 1], [0, 2], [0, 3]], [[0, 0, 1, 0, 2], [0, 0, 3, 0, 3]],
        [[0, 0, 0, 1, 0, 2, 0, 0, 3, 0, 3]]]).levels.length →
      (((MerkleTree.mk [[[0, 1], [0, 2], [0, 3]], [[0, 0, 1, 0, 2], [0, 0, 3, 0, 3]],
        [[0, 0, 0, 1, 0, 2, 0, 0, 3, 0, 3]]]).levels.getD i []).length = 1 ↔
        i = (MerkleTree.mk [[[0, 1], [0, 2], [0, 3]], [[0, 0, 1, 0, 2], [0, 0, 3, 0, 3]],
        [[0, 0, 0, 1, 0, 2, 0, 0, 3, 0, 3]]]).levels.length - 1)) :=
  tree_shape demoDigest [[1], [2], [3]] []
    ⟨[[[0, 1], [0, 2], [0, 3]], [[0, 0, 1, 0, 2], [0, 0, 3, 0, 3]],
      [[0, 0, 0, 1, 0, 2, 0, 0, 3, 0, 3]]]⟩ (by decide)

/-- C4: the Parent Combiner is commutative, because the two children
are sorted into ascending byte order before concatenation and
digesting. -/
theorem combiner_comm (hash : Bytes → Bytes) (a b : Bytes) :
    merkle_parent hash [a, b] = merkle_parent hash [b, a] :=
  merkle_parent_comm hash a b

/-- C5: applying the level builder to a level of odd length `L > 1`
duplicates the last hash before pairing: entry `k` of the parent level
is the combiner of `level[2k]` and `level[2k+1]` for `k < L / 2`, and
the last entry combines `level[L-1]` with itself. -/
theorem odd_padding_law (hash : Bytes → Bytes) (lvl : List Bytes)
    (hodd : lvl.length % 2 = 1) (hlen : 1 < lvl.length) :
    ∃ parent, merkle_parent_level hash lvl = some parent ∧
      parent.length = (lvl.length + 1) / 2 ∧
      (∀ k, k < lvl.length / 2 →
        parent.get? k =
          some (merkle_parent hash [lvl.getD (2 * k) [], lvl.getD (2 * k + 1) []])) ∧
      parent.get? (lvl.length / 2) =
        some (merkle_parent hash
          [lvl.getD (lvl.length - 1) [], lvl.getD (lvl.length - 1) []]) := by
  have hne1 : lvl.length ≠ 1 := by omega
  have hp : merkle_parent_level hash lvl =
      some (pairwiseParents hash (lvl ++ [lvl.getLastD []])) := by
    simp [merkle_parent_level, hne1, hodd]
  refine ⟨_, hp, merkle_parent_level_some_length hash hp, ?_, ?_⟩
  · intro k hk
    obtain ⟨a, ha⟩ := get?_some_of_lt (show 2 * k < lvl.length by omega)
    obtain ⟨b, hb⟩ := get?_some_of_lt (show 2 * k + 1 < lvl.length by omega)
    have hpe := parent_entry hash hp ha
    rw [if_neg (show ¬ (2 * k) % 2 = 1 by omega), hb] at hpe
    simp only [Option.getD_some] at hpe
    rw [show 2 * k / 2 = k by omega] at hpe
    rw [getD_of_get?_some [] ha, getD_of_get?_some [] hb]
    exact hpe
  · obtain ⟨a, ha⟩ := get?_some_of_lt (show lvl.length - 1 < lvl.length by omega)
    have hpe := parent_entry hash hp ha
    rw [if_neg (show ¬ (lvl.length - 1) % 2 = 1 by omega),
      show lvl.length - 1 + 1 = lvl.length by omega,
      List.get?_eq_none.mpr (le_refl _)] at hpe
    simp only [Option.getD_none] at hpe
    rw [show (lvl.length - 1) / 2 = lvl.length / 2 by omega] at hpe
    rw [getD_of_get?_some [] ha]
    exact hpe

theorem odd_padding_law_witness :
    ∃ parent, merkle_parent_level demoDigest [[1], [2], [3]] = some parent ∧
      parent.length = (([[1], [2], [3]] : List Bytes).length + 1) / 2 ∧
      (∀ k, k < ([[1], [2], [3]] : List Bytes).length / 2 →
        parent.get? k =
          some (merkle_parent demoDigest
            [([[1], [2], [3]] : List Bytes).getD (2 * k) [],
             ([[1], [2], [3]] : List Bytes).getD (2 * k + 1) []])) ∧
      parent.get? (([[1], [2], [3]] : List Bytes).length / 2) =
        some (merkle_parent demoDigest
          [([[1], [2], [3]] : List Bytes).getD (([[1], [2], [3]] : List Bytes).length - 1) [],
           ([[1], [2], [3]] : List Bytes).getD (([[1], [2], [3]] : List Bytes).length - 1) []]) :=
  odd_padding_law demoDigest [[1], [2], [3]] (by decide) (by decide)

theorem proof_length_of_wf (hash : Bytes → Bytes) {t : MerkleTree}
    (wf : WellFormed hash t) {h : Bytes} {p : List Bytes}
    (hp : proof_of_inclusion t h = some p) : p.length = t.levels.length - 1 := by
  unfold proof_of_inclusion at hp
  cases h0 : t.levels.get? 0 with
  | none => rw [h0] at hp; simp at hp
  | some lvl0 =>
    rw [h0, Option.some_bind] at hp
    cases hi : position (fun x => x == h) lvl0 with
    | none => rw [hi] at hp; simp at hp
    | some i =>
      rw [hi, Option.map_some'] at hp
      obtain ⟨x, hx, hpx⟩ := position_some_spec _ lvl0 i hi
      have hxh : x = h := by simpa using hpx
      subst hxh
      obtain ⟨hlen, _⟩ :=
        proofLoop_spec hash wf t.levels.length 0 i x lvl0 h0 hx (by omega)
      have hp2 : proofLoop t t.levels.length ⟨0, i, x⟩ = p := by injection hp
      rw [← hp2]
      simpa using hlen

/-- C6: on a tree reachable by `build` and `insert`s, a proof path
returned by `proof_of_inclusion` has length equal to the tree height,
the number of levels minus one. -/
theorem proof_length_eq_height (hash : Bytes → Bytes) (items extra : List Bytes)
    (t : MerkleTree) (h : Bytes) (p : List Bytes)
    (ht : buildThenInserts hash items extra = some t)
    (hp : proof_of_inclusion t h = some p) :
    p.length = t.levels.length - 1 := by
  obtain ⟨leaves, hne, rfl⟩ := buildThenInserts_reachable hash items extra t ht
  exact proof_length_of_wf hash (construct_levels_wf hash leaves hne) hp

theorem proof_length_eq_height_witness :
    ([[0, 2], [0, 0, 3, 0, 3]] : List Bytes).length =
      (MerkleTree.mk [[[0, 1], [0, 2], [0, 3]], [[0, 0, 1, 0, 2], [0, 0, 3, 0, 3]],
        [[0, 0, 0, 1, 0, 2, 0, 0, 3, 0, 3]]]).levels.length - 1 :=
  proof_length_eq_height demoDigest [[1], [2], [3]] []
    ⟨[[[0, 1], [0, 2], [0, 3]], [[0, 0, 1, 0, 2], [0, 0, 3, 0, 3]],
      [[0, 0, 0, 1, 0, 2, 0, 0, 3, 0, 3]]]⟩
    [0, 1] [[0, 2], [0, 0, 3, 0, 3]] (by decide) (by decide)

/-- C7: `build` on an empty item collection returns no tree, and on
any non-empty item collection returns a tree. -/
theorem build_empty_input (hash : Bytes → Bytes) (items : List Bytes)
    (hne : items ≠ []) :
    build hash [] = none ∧ ∃ t, build hash items = some t := by
  refine ⟨rfl, ⟨⟨construct_levels hash (items.map hash)⟩, ?_⟩⟩
  unfold build
  have hie : items.isEmpty = false := by
    cases items with
    | nil => exact absurd rfl hne
    | cons a l => rfl
  rw [hie]
  simp

theorem build_empty_input_witness :
    build demoDigest [] = none ∧ ∃ t, build demoDigest [[1]] = some t :=
  build_empty_input demoDigest [[1]] (by decide)

/-- C8: `proof_of_inclusion` returns `none` (the `NotFound` signal)
exactly when the hash does not occur in level 0, and returns a path
exactly when it does. (`proof_of_inclusion` takes the tree by shared
reference in the source, so the tree is unchanged in either case;
the embedding is pure.) -/
theorem notfound_iff_absent (t : MerkleTree) (h : Bytes) :
    (proof_of_inclusion t h = none ↔ h ∉ t.levels.getD 0 []) ∧
    ((∃ p, proof_of_inclusion t h = some p) ↔ h ∈ t.levels.getD 0 []) := by
  unfold proof_of_inclusion
  cases hl : t.levels with
  | nil => simp
  | cons lvl0 rest =>
    simp only [List.get?_cons_zero, Option.some_bind, List.getD_cons_zero]
    cases hpos : position (fun x => x == h) lvl0 with
    | none =>
      have hnm : h ∉ lvl0 := (position_eq_none_iff_not_mem lvl0 h).mp hpos
      simp [hnm]
    | some i =>
      have hm : h ∈ lvl0 := by
        obtain ⟨x, hx, hpx⟩ := position_some_spec _ lvl0 i hpos
        have hxh : x = h := by simpa using hpx
        subst hxh
        exact mem_of_get?_some hx
      simp [hm]

/-- C9: `contains_hash` is `true` exactly when `proof_of_inclusion`
returns a path — both scan level 0 for a byte-equal match. -/
theorem contains_iff_proof (t : MerkleTree) (h : Bytes)
    (hne : t.levels ≠ []) :
    contains_hash t h = true ↔ (proof_of_inclusion t h).isSome = true := by
  unfold contains_hash proof_of_inclusion
  cases hl : t.levels with
  | nil => exact absurd hl hne
  | cons lvl0 rest =>
    simp only [List.get?_cons_zero, Option.some_bind, List.getD_cons_zero]
    cases hpos : position (fun x => x == h) lvl0 with
    | none =>
      have hnm : h ∉ lvl0 := (position_eq_none_iff_not_mem lvl0 h).mp hpos
      simp only [hpos, Option.map_none', Option.isSome_none, List.any_eq_true]
      constructor
      · intro hex
        obtain ⟨x, hx, hbx⟩ := hex
        have : x = h := by simpa using hbx
        subst this
        exact absurd hx hnm
      · intro hfalse
        exact absurd hfalse (by simp)
    | some i =>
      have hm : h ∈ lvl0 := by
        obtain ⟨x, hx, hpx⟩ := position_some_spec _ lvl0 i hpos
        have hxh : x = h := by simpa using hpx
        subst hxh
        exact mem_of_get?_some hx
      simp only [hpos, Option.map_some', Option.isSome_some, List.any_eq_true]
      constructor
      · intro _
        trivial
      · intro _
        exact ⟨h, hm, by simp⟩

theorem contains_iff_proof_witness :
    contains_hash ⟨[[[1]]]⟩ [1] = true ↔
      (proof_of_inclusion ⟨[[[1]]]⟩ [1]).isSome = true :=
  contains_iff_proof ⟨[[[1]]]⟩ [1] (by decide)

/-- C10: `build [x]` gives the one-level tree `[[hash x]]`, whose root
is `hash x`; `proof_of_inclusion (hash x)` on it returns the empty
path; and `validate_proof h []` is `true` exactly when `h` is the
root. -/
theorem single_item_tree (hash : Bytes → Bytes) (x : Bytes) :
    build hash [x] = some ⟨[[hash x]]⟩ ∧
    root ⟨[[hash x]]⟩ = hash x ∧
    proof_of_inclusion ⟨[[hash x]]⟩ (hash x) = some [] ∧
    (∀ h, validate_proof hash ⟨[[hash x]]⟩ h [] = true ↔ h = hash x) := by
  refine ⟨rfl, rfl, ?_, ?_⟩
  · have hb : (hash x == hash x) = true := by simp
    simp [proof_of_inclusion, position, hb, proofLoop, get_parent]
  · intro h
    simp [validate_proof, root]

end MerkleSpec
